import Mathlib

/-!
Verification of the machine-code generation core of the AsMacro x64 assembler:
the bounded stack vector `SVec`, the byte-field encoders (`Rex`, `ModRm`, `Sib`),
the instruction `Encoder`, and the line resolver with its static `operators` table.
Rust machine integers are modelled as `Nat` with explicit masks where the source
masks; fallible operations (Rust panics) return `Option`.
-/

/-- Bounded stack vector `SVec<C, T>` from util/src/svec.rs: a backing array of
exactly `C` slots plus a logical length `len ≤ C`. -/
structure SVec (C : Nat) (T : Type) where
  array : List T
  len : Nat
  harr : array.length = C
  hlen : len ≤ C

/-- The visible elements of an SVec: the slice of the first `len` slots
(the `Deref` implementation in the source). -/
def SVec.toList {C : Nat} {T : Type} (s : SVec C T) : List T :=
  s.array.take s.len

/-- Construct an empty SVec (`SVec::new`): all slots default, length 0. -/
def SVec.new {C : Nat} {T : Type} [Inhabited T] : SVec C T :=
  ⟨List.replicate C default, 0, List.length_replicate C default, Nat.zero_le C⟩

/-- Push a value (`SVec::push`): panics (`none`) when already at capacity,
otherwise stores the value at the old length and bumps the length. -/
def SVec.push {C : Nat} {T : Type} (s : SVec C T) (v : T) : Option (SVec C T) :=
  if h : s.len = C then
    none
  else
    some ⟨s.array.set s.len v, s.len + 1,
      by rw [List.length_set]; exact s.harr,
      by have := s.hlen; omega⟩

/-- Push each element of a list in order; models the `for` loops in the source
that push element by element. -/
def SVec.pushAll {C : Nat} {T : Type} (s : SVec C T) : List T → Option (SVec C T)
  | [] => some s
  | v :: rest =>
    match SVec.push s v with
    | none => none
    | some t => SVec.pushAll t rest

/-- Write the default value into `k` consecutive slots starting at index `i`;
models the `for i in old_len..len` zero-fill loop of `SVec::resize`. -/
def SVec.setFrom {T : Type} (a : List T) (d : T) : Nat → Nat → List T
  | _, 0 => a
  | i, k + 1 => SVec.setFrom (a.set i d) d (i + 1) k

/-- Resize to length `n` (`SVec::resize`): panics (`none`) when `n` exceeds the
capacity; otherwise sets the length and default-fills the newly exposed slots. -/
def SVec.resize {C : Nat} {T : Type} [Inhabited T] (s : SVec C T) (n : Nat) :
    Option (SVec C T) :=
  if h : C < n then
    none
  else
    some ⟨SVec.setFrom s.array default s.len (n - s.len), n, by
      have : ∀ (k i : Nat) (a : List T), (SVec.setFrom a (default : T) i k).length = a.length := by
        intro k
        induction k with
        | zero => intro i a; rfl
        | succ m ih => intro i a; rw [SVec.setFrom, ih, List.length_set]
      rw [this, s.harr], by omega⟩

/-- Constructor `SVec::value(array, len)` used by the operator table: a literal
backing array together with an explicit logical length.  The list is padded or
truncated to the capacity and the length clamped, which agrees with the source
at every call site (where the literal has exactly `C` elements and `len ≤ C`). -/
def SVec.value {C : Nat} {T : Type} [Inhabited T] (a : List T) (n : Nat) : SVec C T :=
  ⟨(a ++ List.replicate C default).take C, min n C, by
      rw [List.length_take, List.length_append, List.length_replicate]
      omega,
    Nat.min_le_right n C⟩

theorem SVec.toList_length {C : Nat} {T : Type} (s : SVec C T) :
    s.toList.length = s.len := by
  rw [SVec.toList, List.length_take, s.harr]
  exact Nat.min_eq_left s.hlen

theorem SVec.toList_new {C : Nat} {T : Type} [Inhabited T] :
    (SVec.new : SVec C T).toList = [] := by
  rfl

theorem List.take_set_succ {T : Type} (l : List T) (n : Nat) (v : T)
    (h : n < l.length) : (l.set n v).take (n + 1) = l.take n ++ [v] := by
  induction l generalizing n with
  | nil => simp at h
  | cons a t ih =>
    cases n with
    | zero => simp
    | succ m =>
      simp only [List.set, List.take, List.cons_append, List.cons.injEq, true_and]
      exact ih m (by simpa using h)

theorem SVec.push_ok {C : Nat} {T : Type} (s : SVec C T) (v : T)
    (h : s.len < C) :
    ∃ t, SVec.push s v = some t ∧ t.len = s.len + 1 ∧ t.toList = s.toList ++ [v] := by
  have hne : ¬ s.len = C := by omega
  refine ⟨_, by rw [SVec.push, dif_neg hne], rfl, ?_⟩
  show (s.array.set s.len v).take (s.len + 1) = s.array.take s.len ++ [v]
  exact List.take_set_succ s.array s.len v (by rw [s.harr]; exact h)

theorem SVec.pushAll_ok {C : Nat} {T : Type} (s : SVec C T) (l : List T)
    (h : s.len + l.length ≤ C) :
    ∃ t, SVec.pushAll s l = some t ∧ t.len = s.len + l.length ∧
      t.toList = s.toList ++ l := by
  induction l generalizing s with
  | nil => exact ⟨s, rfl, by simp, by simp [SVec.toList]⟩
  | cons v rest ih =>
    obtain ⟨t1, ht1, hlen1, hlist1⟩ := SVec.push_ok s v (by simp at h; omega)
    obtain ⟨t2, ht2, hlen2, hlist2⟩ := ih t1 (by simp at h ⊢; omega)
    refine ⟨t2, ?_, by simp at hlen2 ⊢; omega, by simp [hlist2, hlist1]⟩
    rw [SVec.pushAll, ht1]
    exact ht2

theorem SVec.pushAll_singleton {C : Nat} {T : Type} (s : SVec C T) (v : T) :
    SVec.pushAll s [v] = SVec.push s v := by
  rw [SVec.pushAll]
  cases SVec.push s v with
  | none => rfl
  | some t => rfl

/-- REX prefix descriptor from asm/src/encoder.rs: one packed byte (bits 7..4 are
0100) plus an enabled flag; the source type is `Rex(u8, bool)`. -/
structure Rex where
  byte : Nat
  enabled : Bool

/-- Fresh descriptor `Rex::new`: byte 0b0100_0000, disabled. -/
def Rex.new : Rex := ⟨0b01000000, false⟩

/-- Enable emission of the REX byte (`Rex::enable`). -/
def Rex.enable (r : Rex) : Rex := { r with enabled := true }

/-- Set the W bit (`Rex::set_w`): clear bit 3 then OR it back in when requested;
the u8 complement of 0b1000 is 0b11110111 = 247. -/
def Rex.set_w (r : Rex) (w : Bool) : Rex :=
  { r with byte := if w then (r.byte &&& 247) ||| 8 else r.byte &&& 247 }

/-- Set the R bit (`Rex::set_r`); the u8 complement of 0b0100 is 251. -/
def Rex.set_r (r : Rex) (x : Bool) : Rex :=
  { r with byte := if x then (r.byte &&& 251) ||| 4 else r.byte &&& 251 }

/-- Set the X bit (`Rex::set_x`); the u8 complement of 0b0010 is 253. -/
def Rex.set_x (r : Rex) (x : Bool) : Rex :=
  { r with byte := if x then (r.byte &&& 253) ||| 2 else r.byte &&& 253 }

/-- Set the B bit (`Rex::set_b`); the u8 complement of 0b0001 is 254. -/
def Rex.set_b (r : Rex) (x : Bool) : Rex :=
  { r with byte := if x then (r.byte &&& 254) ||| 1 else r.byte &&& 254 }

/-- Packed output (`Rex::get`): the byte when enabled, nothing when disabled. -/
def Rex.get (r : Rex) : Option Nat :=
  if r.enabled then some r.byte else none

/-- Opcode byte sequence from asm/src/encoder.rs: a wrapper around `SVec<3, u8>`. -/
structure Opecode where
  svec : SVec 3 Nat

/-- Fresh empty opcode sequence (`Opecode::new`). -/
def Opecode.new : Opecode := ⟨SVec.new⟩

/-- Read the opcode byte sequence (`Opecode::get`). -/
def Opecode.get (o : Opecode) : SVec 3 Nat := o.svec

/-- ModRM byte from asm/src/encoder.rs: a single packed u8. -/
structure ModRm where
  byte : Nat

/-- Fresh ModRM byte, all zero (`ModRm::new`). -/
def ModRm.new : ModRm := ⟨0⟩

/-- Set the mod field, bits 7-6 (`ModRm::set_mod`): clear the range with the u8
complement of 0b11000000 (= 63), then OR in the masked value shifted left 6. -/
def ModRm.set_mod (m : ModRm) (x : Nat) : ModRm :=
  ⟨(m.byte &&& 63) ||| ((x &&& 3) <<< 6)⟩

/-- Set the reg field, bits 5-3 (`ModRm::set_reg`): clear the range with the u8
complement of 0b00111000 (= 199), then OR in the masked value shifted left 3. -/
def ModRm.set_reg (m : ModRm) (x : Nat) : ModRm :=
  ⟨(m.byte &&& 199) ||| ((x &&& 7) <<< 3)⟩

/-- Set the rm field, bits 2-0 (`ModRm::set_rm`): clear the range with the u8
complement of 0b00000111 (= 248), then OR in the masked value. -/
def ModRm.set_rm (m : ModRm) (x : Nat) : ModRm :=
  ⟨(m.byte &&& 248) ||| (x &&& 7)⟩

/-- Read the packed ModRM byte (`ModRm::get`). -/
def ModRm.get (m : ModRm) : Nat := m.byte

/-- SIB byte from asm/src/encoder.rs: a single packed u8. -/
structure Sib where
  byte : Nat

/-- Fresh SIB byte, all zero (`Sib::new`). -/
def Sib.new : Sib := ⟨0⟩

/-- Set the scale field, bits 7-6 (`Sib::set_scale`). -/
def Sib.set_scale (s : Sib) (x : Nat) : Sib :=
  ⟨(s.byte &&& 63) ||| ((x &&& 3) <<< 6)⟩

/-- Set the index field, bits 5-3 (`Sib::set_index`). -/
def Sib.set_index (s : Sib) (x : Nat) : Sib :=
  ⟨(s.byte &&& 199) ||| ((x &&& 7) <<< 3)⟩

/-- Set the base field, bits 2-0 (`Sib::set_base`). -/
def Sib.set_base (s : Sib) (x : Nat) : Sib :=
  ⟨(s.byte &&& 248) ||| (x &&& 7)⟩

/-- Read the packed SIB byte (`Sib::get`). -/
def Sib.get (s : Sib) : Nat := s.byte

/-- Displacement from asm/src/encoder.rs: none, one byte, or a 32-bit value. -/
inductive Disp where
  | None : Disp
  | Disp8 : Nat → Disp
  | Disp32 : Nat → Disp

/-- Immediate from asm/src/encoder.rs: none, or an 8/16/32/64-bit value. -/
inductive Imm where
  | None : Imm
  | Imm8 : Nat → Imm
  | Imm16 : Nat → Imm
  | Imm32 : Nat → Imm
  | Imm64 : Nat → Imm

/-- Instruction encoder from asm/src/encoder.rs.  The legacy-prefix field is
called `prefix` in the source and is never consulted by `encode`. -/
structure Encoder where
  pfx : Option Unit
  rex : Rex
  opecode : Opecode
  mod_rm : Option ModRm
  sib : Option Sib
  disp : Disp
  imm : Imm

/-- Fresh encoder with every field unset (`Encoder::new`). -/
def Encoder.new : Encoder :=
  ⟨none, Rex.new, Opecode.new, none, none, Disp.None, Imm.None⟩

/-- The little-endian byte list pushed by the source loops
`for i in 0..n { binary.push(((v >> (i*8)) & 0xff) as u8); }`. -/
def leBytes (n : Nat) (v : Nat) : List Nat :=
  (List.range n).map fun i => (v >>> (i * 8)) &&& 255

/-- Machine-language emission (`Encoder::encode`): push the REX byte when
enabled, then the opcode bytes, then ModRM, SIB, displacement, and immediate
into a fresh `SVec<18, u8>`.  A capacity panic inside any push is `none`. -/
def Encoder.encode (e : Encoder) : Option (SVec 18 Nat) :=
  Option.bind (match Rex.get e.rex with
    | some r => SVec.push SVec.new r
    | none => some SVec.new) fun binary1 =>
  Option.bind (SVec.pushAll binary1 (SVec.toList (Opecode.get e.opecode))) fun binary2 =>
  Option.bind (match e.mod_rm with
    | some m => SVec.push binary2 (ModRm.get m)
    | none => some binary2) fun binary3 =>
  Option.bind (match e.sib with
    | some sb => SVec.push binary3 (Sib.get sb)
    | none => some binary3) fun binary4 =>
  Option.bind (match e.disp with
    | Disp.None => some binary4
    | Disp.Disp8 d => SVec.push binary4 d
    | Disp.Disp32 d => SVec.pushAll binary4 (leBytes 4 d)) fun binary5 =>
  match e.imm with
  | Imm.None => some binary5
  | Imm.Imm8 v => SVec.push binary5 v
  | Imm.Imm16 v => SVec.pushAll binary5 (leBytes 2 v)
  | Imm.Imm32 v => SVec.pushAll binary5 (leBytes 4 v)
  | Imm.Imm64 v => SVec.pushAll binary5 (leBytes 8 v)

/-- Modelled from the spec: the numeric-literal parser collaborator
`util::functions::stoi` is not under src/; per the spec it returns the parsed
integer when the operand text is a numeric literal and nothing otherwise.
Modelled as a plain decimal literal of one or more digits. -/
def stoi (s : String) : Option Nat :=
  if s.data ≠ [] ∧ s.data.all Char.isDigit then
    some (s.data.foldl (fun a c => a * 10 + (c.toNat - 48)) 0)
  else
    none

/-- Modelled from the spec: the register-table collaborator
`line_parser::get_reg64_str` is not under src/; per the spec it returns, for a
64-bit register name, its 3-bit encoding together with whether the REX
extension bit is required. -/
def get_reg64_str (s : String) : Option (Nat × Bool) :=
  List.lookup s
    [("rax", (0, false)), ("rcx", (1, false)), ("rdx", (2, false)),
     ("rbx", (3, false)), ("rsp", (4, false)), ("rbp", (5, false)),
     ("rsi", (6, false)), ("rdi", (7, false)),
     ("r8", (0, true)), ("r9", (1, true)), ("r10", (2, true)),
     ("r11", (3, true)), ("r12", (4, true)), ("r13", (5, true)),
     ("r14", (6, true)), ("r15", (7, true))]

/-- Modelled from the spec: the memory-reference parser collaborator
`line_parser::get_rm64_ref_str` is not under src/ and the spec leaves its
grammar as an interface contract; modelled as a bracketed 64-bit register name. -/
def get_rm64_ref_str (s : String) : Option (Nat × Bool) :=
  if s.startsWith "[" ∧ s.endsWith "]" then
    get_reg64_str ((s.drop 1).dropRight 1)
  else
    none

/-- Operand-type enumeration from asm/src/line/mod.rs. -/
inductive OperandType where
  | None : OperandType
  | Imm64 : OperandType
  | Reg64 : OperandType
  | Rm64 : OperandType

instance : Inhabited OperandType := ⟨OperandType.None⟩

instance : DecidableEq OperandType := fun a b => by
  cases a <;> cases b <;> first
    | exact isTrue rfl
    | exact isFalse (fun h => OperandType.noConfusion h)

/-- Operand-type predicate `OperandType::is_match` from asm/src/line/mod.rs. -/
def OperandType.is_match : OperandType → String → Bool
  | OperandType.None, expr => expr.isEmpty
  | OperandType.Imm64, expr => (stoi expr).isSome
  | OperandType.Reg64, expr => (get_reg64_str expr).isSome
  | OperandType.Rm64, expr =>
      (get_reg64_str expr).isSome || (get_rm64_ref_str expr).isSome

/-- Modelled from the spec: `RexRule = RexMode` comes from
`crate::ml_gen::raw_encoder`, which is not under src/; per the spec the REX
mode of a rule is none or force REX.W. -/
inductive RexMode where
  | None : RexMode
  | RexW : RexMode

/-- ModRM mode of an encoding rule, from asm/src/line/mod.rs (the source spells
the fixed-digit variant `Dight`). -/
inductive ModRmRule where
  | None : ModRmRule
  | R : ModRmRule
  | Dight : Nat → ModRmRule

/-- Immediate mode of an encoding rule, from asm/src/line/mod.rs. -/
inductive ImmRule where
  | None : ImmRule
  | Ib : ImmRule
  | Iw : ImmRule
  | Id : ImmRule
  | Io : ImmRule

/-- Register-addition mode of an encoding rule, from asm/src/line/mod.rs. -/
inductive AddRegRule where
  | None : AddRegRule
  | Rb : AddRegRule
  | Rw : AddRegRule
  | Rd : AddRegRule
  | Ro : AddRegRule

/-- Encoding rule of one instruction form, from asm/src/line/mod.rs. -/
structure Rule where
  opecode : SVec 3 Nat
  rex : RexMode
  modrm : ModRmRule
  imm : ImmRule
  add_reg : AddRegRule

/-- One row of the instruction table: mnemonic, operand-type pattern, rule. -/
structure Operator where
  mnemonic : String
  operands : SVec 2 OperandType
  encoding_rule : Rule

/-- Table row `mov r64, imm64` (opcode 0xB8, REX.W, register added, Id immediate). -/
def movRegImmOperator : Operator :=
  { mnemonic := "mov",
    operands := SVec.value [OperandType.Reg64, OperandType.Imm64] 2,
    encoding_rule :=
      { opecode := SVec.value [0xb8, 0, 0] 1,
        rex := RexMode.RexW,
        modrm := ModRmRule.None,
        imm := ImmRule.Id,
        add_reg := AddRegRule.Rd } }

/-- Table row `mov r64, r/m64` (opcode 0x8B, REX.W, ModRM reg mode). -/
def movRegRmOperator : Operator :=
  { mnemonic := "mov",
    operands := SVec.value [OperandType.Reg64, OperandType.Rm64] 2,
    encoding_rule :=
      { opecode := SVec.value [0x8b, 0, 0] 1,
        rex := RexMode.RexW,
        modrm := ModRmRule.R,
        imm := ImmRule.None,
        add_reg := AddRegRule.None } }

/-- Table row `push r64` (opcode 0x50, register added). -/
def pushOperator : Operator :=
  { mnemonic := "push",
    operands := SVec.value [OperandType.Reg64, OperandType.None] 1,
    encoding_rule :=
      { opecode := SVec.value [0x50, 0, 0] 1,
        rex := RexMode.None,
        modrm := ModRmRule.None,
        imm := ImmRule.None,
        add_reg := AddRegRule.Rd } }

/-- Table row `pop r64` (opcode 0x58, REX.W, register added). -/
def popOperator : Operator :=
  { mnemonic := "pop",
    operands := SVec.value [OperandType.Reg64, OperandType.None] 1,
    encoding_rule :=
      { opecode := SVec.value [0x58, 0, 0] 1,
        rex := RexMode.RexW,
        modrm := ModRmRule.None,
        imm := ImmRule.None,
        add_reg := AddRegRule.Rd } }

/-- Table row `ret` (opcode 0xC3, no operands). -/
def retOperator : Operator :=
  { mnemonic := "ret",
    operands := SVec.value [OperandType.None, OperandType.None] 0,
    encoding_rule :=
      { opecode := SVec.value [0xc3, 0, 0] 1,
        rex := RexMode.None,
        modrm := ModRmRule.None,
        imm := ImmRule.None,
        add_reg := AddRegRule.None } }

/-- The static, ordered rule table `operators` from asm/src/line/mod.rs. -/
def operators : List Operator :=
  [movRegImmOperator, movRegRmOperator, pushOperator, popOperator, retOperator]

/-- Resolved line from asm/src/line/mod.rs: optional label and, when a mnemonic
was resolved, the matched table row paired with the raw operand text. -/
structure Line where
  label : Option String
  ops : Option (Operator × SVec 2 String)

/-- Raw tokenized line from asm/src/line/mod.rs. -/
structure RowLine where
  label : Option String
  mnemonic : Option String
  operands : SVec 2 String

/-- The inner per-operand check of `get_operation_index`: every pattern entry
accepts the raw operand text at its position (the `flag` loop in the source;
the arity-equality guard makes the zip exhaustive). -/
def operandsAllMatch (pat : SVec 2 OperandType) (ops : SVec 2 String) : Bool :=
  (List.zip pat.toList ops.toList).all fun p => OperandType.is_match p.1 p.2

/-- The full row condition checked for index `i` inside `get_operation_index`:
the line has this mnemonic, the arities agree, and every operand matches. -/
def rowMatches (self : RowLine) (op : Operator) : Prop :=
  self.mnemonic = some op.mnemonic ∧
  op.operands.len = self.operands.len ∧
  operandsAllMatch op.operands self.operands = true

instance (self : RowLine) (op : Operator) : Decidable (rowMatches self op) := by
  unfold rowMatches
  infer_instance

/-- The scan loop of `RowLine::get_operation_index`, carrying the next index. -/
def opIdxGo (self : RowLine) : List Operator → Nat → Option Nat
  | [], _ => none
  | op :: rest, i =>
    if rowMatches self op then some i else opIdxGo self rest (i + 1)

/-- `RowLine::get_operation_index`: scan the given table in order and return
the index of the first row whose condition holds. -/
def RowLine.get_operation_index (self : RowLine) (operators_list : List Operator) :
    Option Nat :=
  opIdxGo self operators_list 0

/-- `RowLine::to_line`: with no mnemonic, a label-only resolved line.  With a
mnemonic, the source computes the match index by calling
`self.get_operation_index(operators)` on the STATIC table `operators` (not on
the `operators_list` parameter) and then indexes `operators_list` with that
index; an out-of-bounds index is a Rust panic, modelled as `none`. -/
def RowLine.to_line (self : RowLine) (operators_list : List Operator) :
    Option Line :=
  if self.mnemonic.isSome then
    match RowLine.get_operation_index self operators with
    | none => none
    | some i =>
      match operators_list[i]? with
      | none => none
      | some op => some { label := self.label, ops := some (op, self.operands) }
  else
    some { label := self.label, ops := none }

/-- The bytes the REX stage of `encode` pushes. -/
def rexPart (r : Rex) : List Nat :=
  match Rex.get r with
  | some b => [b]
  | none => []

/-- The bytes the ModRM stage of `encode` pushes. -/
def modRmPart (o : Option ModRm) : List Nat :=
  match o with
  | some m => [ModRm.get m]
  | none => []

/-- The bytes the SIB stage of `encode` pushes. -/
def sibPart (o : Option Sib) : List Nat :=
  match o with
  | some s => [Sib.get s]
  | none => []

/-- The bytes the displacement stage of `encode` pushes. -/
def dispPart : Disp → List Nat
  | Disp.None => []
  | Disp.Disp8 d => [d]
  | Disp.Disp32 d => leBytes 4 d

/-- The bytes the immediate stage of `encode` pushes. -/
def immPart : Imm → List Nat
  | Imm.None => []
  | Imm.Imm8 v => [v]
  | Imm.Imm16 v => leBytes 2 v
  | Imm.Imm32 v => leBytes 4 v
  | Imm.Imm64 v => leBytes 8 v

theorem SVec.pushAll_append {C : Nat} {T : Type} (s : SVec C T) (l1 l2 : List T) :
    SVec.pushAll s (l1 ++ l2) =
      Option.bind (SVec.pushAll s l1) fun t => SVec.pushAll t l2 := by
  induction l1 generalizing s with
  | nil => simp [SVec.pushAll]
  | cons v rest ih =>
    cases h : SVec.push s v with
    | none => simp [SVec.pushAll, h]
    | some t => simp [SVec.pushAll, h, ih]

theorem SVec.pushAll_nil {C : Nat} {T : Type} (s : SVec C T) :
    SVec.pushAll s [] = some s := rfl

theorem encode_eq_pushAll (e : Encoder) :
    Encoder.encode e = SVec.pushAll SVec.new
      (rexPart e.rex ++ SVec.toList (Opecode.get e.opecode) ++ modRmPart e.mod_rm ++
       sibPart e.sib ++ dispPart e.disp ++ immPart e.imm) := by
  obtain ⟨p, ⟨rb, ren⟩, opc, mrm, sb, dsp, im⟩ := e
  simp only [SVec.pushAll_append]
  cases ren <;> cases mrm <;> cases sb <;> cases dsp <;> cases im <;>
    simp [Encoder.encode, rexPart, modRmPart, sibPart, dispPart, immPart, Rex.get,
      SVec.pushAll_singleton, SVec.pushAll_nil, Option.bind_assoc]

/-- Little-endian byte decomposition in the spec's terms: byte `i` is
`v / 256^i % 256`. -/
def leSpec (n v : Nat) : List Nat :=
  (List.range n).map fun i => v / 256 ^ i % 256

theorem leBytes_eq_leSpec (n v : Nat) : leBytes n v = leSpec n v := by
  unfold leBytes leSpec
  apply List.map_congr_left
  intro i _
  rw [Nat.shiftRight_eq_div_pow]
  rw [show (255 : Nat) = 2 ^ 8 - 1 from rfl, Nat.and_pow_two_sub_one_eq_mod]
  rw [Nat.mul_comm i 8, Nat.pow_mul]

/-- Following the spec s words, the emitted byte sequence of an encoder: no
legacy prefix, the REX byte exactly when enabled, the opcode bytes in order,
the ModRM byte exactly when present, the SIB byte exactly when present, the
displacement as 0, 1 or 4 little-endian bytes, and the immediate as 0, 1, 2, 4
or 8 little-endian bytes.  Stated independently of `Encoder.encode` so the two
can be compared. -/
def encodeSpec (e : Encoder) : List Nat :=
  (if e.rex.enabled then [e.rex.byte] else []) ++
  SVec.toList (Opecode.get e.opecode) ++
  (match e.mod_rm with
   | some m => [ModRm.get m]
   | none => []) ++
  (match e.sib with
   | some s => [Sib.get s]
   | none => []) ++
  (match e.disp with
   | Disp.None => []
   | Disp.Disp8 d => [d]
   | Disp.Disp32 d => leSpec 4 d) ++
  (match e.imm with
   | Imm.None => []
   | Imm.Imm8 v => [v]
   | Imm.Imm16 v => leSpec 2 v
   | Imm.Imm32 v => leSpec 4 v
   | Imm.Imm64 v => leSpec 8 v)

theorem parts_eq_spec (e : Encoder) :
    rexPart e.rex ++ SVec.toList (Opecode.get e.opecode) ++ modRmPart e.mod_rm ++
      sibPart e.sib ++ dispPart e.disp ++ immPart e.imm = encodeSpec e := by
  obtain ⟨p, ⟨rb, ren⟩, opc, mrm, sb, dsp, im⟩ := e
  cases ren <;> cases mrm <;> cases sb <;> cases dsp <;> cases im <;>
    simp [rexPart, modRmPart, sibPart, dispPart, immPart, encodeSpec, Rex.get,
      leBytes_eq_leSpec]

theorem rexPart_length_le (r : Rex) : (rexPart r).length ≤ 1 := by
  unfold rexPart
  cases Rex.get r <;> simp

theorem modRmPart_length_le (o : Option ModRm) : (modRmPart o).length ≤ 1 := by
  unfold modRmPart
  cases o <;> simp

theorem sibPart_length_le (o : Option Sib) : (sibPart o).length ≤ 1 := by
  unfold sibPart
  cases o <;> simp

theorem dispPart_length_le (d : Disp) : (dispPart d).length ≤ 4 := by
  cases d <;> simp [dispPart, leBytes]

theorem immPart_length_le (v : Imm) : (immPart v).length ≤ 8 := by
  cases v <;> simp [immPart, leBytes]

/-- Shared runner lemma: `encode` never hits the capacity panic and its output
is exactly the spec s byte sequence. -/
theorem encodeRun (e : Encoder) :
    ∃ t, Encoder.encode e = some t ∧ SVec.toList t = encodeSpec e ∧
      t.len = (encodeSpec e).length := by
  rw [encode_eq_pushAll]
  have h2 : (SVec.toList (Opecode.get e.opecode)).length ≤ 3 := by
    rw [SVec.toList_length]
    exact (Opecode.get e.opecode).hlen
  have hb : (rexPart e.rex ++ SVec.toList (Opecode.get e.opecode) ++
      modRmPart e.mod_rm ++ sibPart e.sib ++ dispPart e.disp ++
      immPart e.imm).length ≤ 18 := by
    simp only [List.length_append]
    have h1 := rexPart_length_le e.rex
    have h3 := modRmPart_length_le e.mod_rm
    have h4 := sibPart_length_le e.sib
    have h5 := dispPart_length_le e.disp
    have h6 := immPart_length_le e.imm
    omega
  have hzero : (SVec.new : SVec 18 Nat).len = 0 := rfl
  have hgoal : (SVec.new : SVec 18 Nat).len +
      (rexPart e.rex ++ SVec.toList (Opecode.get e.opecode) ++ modRmPart e.mod_rm ++
        sibPart e.sib ++ dispPart e.disp ++ immPart e.imm).length ≤ 18 := by
    omega
  obtain ⟨t, ht, hlen, hlist⟩ := SVec.pushAll_ok SVec.new
    (rexPart e.rex ++ SVec.toList (Opecode.get e.opecode) ++ modRmPart e.mod_rm ++
      sibPart e.sib ++ dispPart e.disp ++ immPart e.imm) hgoal
  refine ⟨t, ht, ?_, ?_⟩
  · rw [hlist, SVec.toList_new, List.nil_append, parts_eq_spec]
  · rw [hlen, hzero, Nat.zero_add, ← parts_eq_spec e]

theorem SVec.setFrom_getElem_lt {T : Type} (d : T) :
    ∀ (k i j : Nat) (a : List T), j < i → (SVec.setFrom a d i k)[j]? = a[j]? := by
  intro k
  induction k with
  | zero => intro i j a _; rfl
  | succ m ih =>
    intro i j a hj
    rw [SVec.setFrom, ih (i + 1) j _ (by omega)]
    exact List.getElem?_set_ne (by omega)

theorem SVec.setFrom_getElem_in {T : Type} (d : T) :
    ∀ (k i j : Nat) (a : List T), i ≤ j → j < i + k → j < a.length →
      (SVec.setFrom a d i k)[j]? = some d := by
  intro k
  induction k with
  | zero => intro i j a h1 h2 _; omega
  | succ m ih =>
    intro i j a hij hjk hlen
    rw [SVec.setFrom]
    by_cases h : j = i
    · subst h
      rw [SVec.setFrom_getElem_lt d m (j + 1) j _ (by omega)]
      exact List.getElem?_set_self (by omega)
    · exact ih (i + 1) j (a.set i d) (by omega) (by omega)
        (by rw [List.length_set]; exact hlen)

set_option maxRecDepth 4000

theorem and63_mod : ∀ m < 256, m &&& 63 = m % 64 := by decide

theorem and3_mod : ∀ x < 256, x &&& 3 = x % 4 := by decide

theorem and7_mod : ∀ x < 256, x &&& 7 = x % 8 := by decide

theorem and199_split : ∀ m < 256, m &&& 199 = m % 8 + m / 64 * 64 := by decide

theorem and248_div : ∀ m < 256, m &&& 248 = m / 8 * 8 := by decide

theorem or_shift6 : ∀ a < 64, ∀ b < 4, a ||| b <<< 6 = a + b * 64 := by decide

theorem or_shift3 : ∀ c < 8, ∀ d < 4, ∀ e < 8,
    (c + d * 64) ||| e <<< 3 = c + e * 8 + d * 64 := by decide

theorem or_low : ∀ a < 32, ∀ e < 8, a * 8 ||| e = a * 8 + e := by decide

/-- The scan loop finds nothing when no row of the scanned list matches. -/
theorem opIdxGo_none (self : RowLine) :
    ∀ (l : List Operator) (i : Nat), (∀ op ∈ l, ¬ rowMatches self op) →
      opIdxGo self l i = none := by
  intro l
  induction l with
  | nil => intro i _; rfl
  | cons op rest ih =>
    intro i h
    rw [opIdxGo, if_neg (h op (by simp))]
    exact ih (i + 1) fun q hq => h q (by simp [hq])

/-- Modelled from the spec: the downstream driver applying the add-register
rule `Rd` (outside src/) adds the register number into the low 3 bits of the
last opcode byte. -/
def opcodeWithReg (op : SVec 3 Nat) (reg : Nat) : SVec 3 Nat :=
  ⟨op.array.set (op.len - 1) (op.array.getD (op.len - 1) 0 + reg % 8), op.len,
    by rw [List.length_set]; exact op.harr, op.hlen⟩

/-- Modelled from the spec: the driver that converts the resolved Reg64+Imm64
`mov` rule and its concrete operands into Encoder fields is outside src/.  Per
the spec this form encodes with REX.W enabled when the rule says RexW, the
register number added into the low 3 bits of the opcode byte per Rd, no ModRM
or SIB, and the immediate as 8 little-endian bytes (a 64-bit immediate). -/
def movRegImm64Encoder (r : Rule) (reg imm : Nat) : Encoder :=
  { pfx := none,
    rex := match r.rex with
      | RexMode.RexW => Rex.enable (Rex.set_w Rex.new true)
      | RexMode.None => Rex.new,
    opecode := ⟨match r.add_reg with
      | AddRegRule.Rd => opcodeWithReg r.opecode reg
      | _ => r.opecode⟩,
    mod_rm := none,
    sib := none,
    disp := Disp.None,
    imm := Imm.Imm64 imm }

/-- Raw line `mov rax, 123`. -/
def movRaxRow : RowLine := ⟨none, some "mov", SVec.value ["rax", "123"] 2⟩

/-- Raw line with the unrecognized mnemonic `xyz` and no operands. -/
def xyzRow : RowLine := ⟨none, some "xyz", SVec.value [] 0⟩

/-- Raw line `push rax, rbx`: wrong arity for the `push` rule. -/
def pushTwoRow : RowLine := ⟨none, some "push", SVec.value ["rax", "rbx"] 2⟩

/-- Raw label-only line whose operand slots carry junk text. -/
def labelOnlyRow : RowLine := ⟨some "start", none, SVec.value ["garbage", "@@!"] 2⟩

/-- Demonstration SVec of capacity 4 holding the two elements 5, 6. -/
def demoSVec : SVec 4 Nat := ⟨[5, 6, 0, 0], 2, rfl, by omega⟩

/-- The value `demoSVec.resize 3` computes to. -/
def demoResized : SVec 4 Nat := ⟨[5, 6, 0, 0], 3, rfl, by omega⟩

/-- C1: resolving mnemonic `mov` with operands `rax`, `123` selects index 0 of
the table, which is the Reg64+Imm64 row; the resolved line pairs that row with
the raw operand text; and the encoding the rule dictates (REX.W enabled,
opcode 0xB8 with register number 0 added into its low 3 bits, no ModRM or SIB,
immediate 123 as 8 little-endian bytes) produces exactly
0x48 0xB8 0x7B 00 00 00 00 00 00 00. -/
theorem mov_rax_imm_end_to_end :
    RowLine.get_operation_index movRaxRow operators = some 0 ∧
    operators[0]? = some movRegImmOperator ∧
    SVec.toList movRegImmOperator.operands = [OperandType.Reg64, OperandType.Imm64] ∧
    Option.map (fun l => Option.map (fun p => (p.1.mnemonic, SVec.toList p.2)) l.ops)
      (RowLine.to_line movRaxRow operators) = some (some ("mov", ["rax", "123"])) ∧
    Option.map SVec.toList
      (Encoder.encode (movRegImm64Encoder movRegImmOperator.encoding_rule 0 123)) =
      some [0x48, 0xb8, 0x7b, 0, 0, 0, 0, 0, 0, 0] :=
  ⟨by decide, rfl, by decide, by decide, by decide⟩

/-- C2: for every Encoder, `encode` succeeds and emits exactly the spec s fixed
order: no legacy prefix, the REX byte iff enabled, the opcode bytes in order,
the ModRM byte iff present, the SIB byte iff present, the displacement as
0/1/4 little-endian bytes, and the immediate as 0/1/2/4/8 little-endian bytes. -/
theorem encode_emits_fixed_order (e : Encoder) :
    Option.map SVec.toList (Encoder.encode e) = some (encodeSpec e) := by
  obtain ⟨t, ht, hl, _⟩ := encodeRun e
  rw [ht]
  exact congrArg some hl

/-- C3 counterexample: `to_line` computes the match index from the static
`operators` table rather than from the table passed in.  With the passed table
holding only the push row, the raw line `mov rax, 123` is paired with the push
rule (the passed table s row 0), although no row of the passed table matches
the line, where the claim requires resolution to return no result. -/
theorem to_line_uses_static_table :
    Option.map (fun l => Option.map (fun p => (p.1.mnemonic, SVec.toList p.2)) l.ops)
      (RowLine.to_line movRaxRow [pushOperator]) = some (some ("push", ["rax", "123"])) ∧
    RowLine.get_operation_index movRaxRow [pushOperator] = none :=
  ⟨by decide, by decide⟩

/-- C4: when a mnemonic is present and no row of the operators table matches
the line, resolution returns no result, whatever table is passed in. -/
theorem to_line_no_match_none (rl : RowLine) (tbl : List Operator)
    (h1 : rl.mnemonic.isSome = true) (h2 : ∀ op ∈ operators, ¬ rowMatches rl op) :
    RowLine.to_line rl tbl = none := by
  rw [RowLine.to_line, if_pos h1, RowLine.get_operation_index,
    opIdxGo_none rl operators 0 h2]

/-- C4 witness: the unrecognized mnemonic `xyz` and `push` with two operands
both match no table row and resolve to nothing. -/
theorem to_line_no_match_none_witness :
    xyzRow.mnemonic.isSome = true ∧ RowLine.to_line xyzRow operators = none ∧
    pushTwoRow.mnemonic.isSome = true ∧ RowLine.to_line pushTwoRow operators = none :=
  ⟨rfl, to_line_no_match_none xyzRow operators rfl (by decide),
   rfl, to_line_no_match_none pushTwoRow operators rfl (by decide)⟩

/-- C5: a raw line without a mnemonic resolves, for every table and whatever
its operand text, to a line carrying only the label, with no ops component. -/
theorem to_line_no_mnemonic_label_only (rl : RowLine) (tbl : List Operator)
    (h : rl.mnemonic = none) :
    RowLine.to_line rl tbl = some { label := rl.label, ops := none } := by
  rw [RowLine.to_line, h]
  rfl

/-- C5 witness: a label-only line with junk operand text passes through. -/
theorem to_line_no_mnemonic_label_only_witness :
    labelOnlyRow.mnemonic = none ∧
    RowLine.to_line labelOnlyRow operators = some { label := some "start", ops := none } :=
  ⟨rfl, to_line_no_mnemonic_label_only labelOnlyRow operators rfl⟩

/-- C6: for every Encoder, `encode` never hits the capacity panic of the
output `SVec<18, u8>`: every push succeeds and at most 18 bytes are pushed. -/
theorem encode_capacity_safe (e : Encoder) :
    ∃ t, Encoder.encode e = some t ∧ t.toList.length ≤ 18 := by
  obtain ⟨t, ht, _, _⟩ := encodeRun e
  refine ⟨t, ht, ?_⟩
  rw [SVec.toList_length]
  exact t.hlen

/-- C7: `resize n` fails exactly when `n` exceeds the capacity; otherwise the
length becomes `n`, reads below `min old_len n` are unchanged, and reads in
`[old_len, n)` give the element type s default. -/
theorem resize_spec_holds (C : Nat) (T : Type) [Inhabited T] (s : SVec C T) (n : Nat) :
    (SVec.resize s n = none ↔ C < n) ∧
    ∀ t, SVec.resize s n = some t →
      t.len = n ∧
      (∀ i, i < min s.len n → t.toList.getD i default = s.toList.getD i default) ∧
      (∀ i, s.len ≤ i → i < n → t.toList.getD i default = default) := by
  by_cases h : C < n
  · rw [SVec.resize, dif_pos h]
    exact ⟨⟨fun _ => h, fun _ => rfl⟩, fun t ht => Option.noConfusion ht⟩
  · rw [SVec.resize, dif_neg h]
    refine ⟨⟨fun hc => Option.noConfusion hc, fun hc => absurd hc h⟩, fun t ht => ?_⟩
    obtain rfl := (Option.some.inj ht).symm
    have hC : s.array.length = C := s.harr
    refine ⟨rfl, ?_, ?_⟩
    · intro i hi
      show ((SVec.setFrom s.array default s.len (n - s.len)).take n).getD i default =
        (s.array.take s.len).getD i default
      rw [List.getD_eq_getElem?_getD, List.getD_eq_getElem?_getD,
        List.getElem?_take_of_lt (by omega), List.getElem?_take_of_lt (by omega),
        SVec.setFrom_getElem_lt default _ s.len i _ (by omega)]
    · intro i h1 h2
      show ((SVec.setFrom s.array default s.len (n - s.len)).take n).getD i default = default
      rw [List.getD_eq_getElem?_getD, List.getElem?_take_of_lt (by omega),
        SVec.setFrom_getElem_in default _ s.len i _ (by omega) (by omega) (by omega)]
      rfl

/-- C7 witness: resizing the two-element demo SVec of capacity 4 to length 3
succeeds, keeps element 0, and exposes the default at index 2. -/
theorem resize_spec_holds_witness :
    demoResized.len = 3 ∧
    demoResized.toList.getD 0 (default : Nat) = demoSVec.toList.getD 0 default ∧
    demoResized.toList.getD 2 (default : Nat) = default := by
  have h := (resize_spec_holds 4 Nat demoSVec 3).2 demoResized rfl
  exact ⟨h.1, h.2.1 0 (by decide), h.2.2 2 (by decide) (by decide)⟩

/-- C8: a disabled REX descriptor packs to nothing whatever its byte holds; a
fresh descriptor once enabled (all four fields false, whether left at their
defaults or set explicitly) packs to 0x40; and `set_w true` on a fresh
descriptor packs, once enabled, to 0x48. -/
theorem rex_descriptor_packing :
    (∀ b : Nat, Rex.get ⟨b, false⟩ = none) ∧
    Rex.get (Rex.enable Rex.new) = some 0x40 ∧
    Rex.get (Rex.enable
      (Rex.set_b (Rex.set_x (Rex.set_r (Rex.set_w Rex.new false) false) false) false)) =
      some 0x40 ∧
    Rex.get (Rex.enable (Rex.set_w Rex.new true)) = some 0x48 :=
  ⟨fun b => rfl, by decide, by decide, by decide⟩

/-- C9: each ModRM setter changes only its own bit range — for u8 inputs,
`set_mod` leaves bits 5-0 unchanged and writes bits 7-6, `set_reg` leaves bits
2-0 and 7-6 unchanged and writes bits 5-3, `set_rm` leaves bits 7-3 unchanged
and writes bits 2-0 — and setting mod then reg then rm from fresh gives 0xC0. -/
theorem modrm_setters_frame :
    (∀ (m x : Nat), m < 256 → x < 256 →
      (((ModRm.set_mod ⟨m⟩ x).byte % 64 = m % 64 ∧
        (ModRm.set_mod ⟨m⟩ x).byte / 64 = x % 4) ∧
       ((ModRm.set_reg ⟨m⟩ x).byte % 8 = m % 8 ∧
        (ModRm.set_reg ⟨m⟩ x).byte / 64 = m / 64 ∧
        (ModRm.set_reg ⟨m⟩ x).byte / 8 % 8 = x % 8) ∧
       ((ModRm.set_rm ⟨m⟩ x).byte / 8 = m / 8 ∧
        (ModRm.set_rm ⟨m⟩ x).byte % 8 = x % 8))) ∧
    ModRm.get (ModRm.set_rm (ModRm.set_reg (ModRm.set_mod ModRm.new 3) 0) 0) = 0xC0 := by
  refine ⟨?_, by decide⟩
  intro m x hm hx
  have hmod : (ModRm.set_mod ⟨m⟩ x).byte = m % 64 + x % 4 * 64 := by
    show (m &&& 63) ||| ((x &&& 3) <<< 6) = m % 64 + x % 4 * 64
    rw [and63_mod m hm, and3_mod x hx,
      or_shift6 (m % 64) (Nat.mod_lt m (by omega)) (x % 4) (Nat.mod_lt x (by omega))]
  have hreg : (ModRm.set_reg ⟨m⟩ x).byte = m % 8 + x % 8 * 8 + m / 64 * 64 := by
    show (m &&& 199) ||| ((x &&& 7) <<< 3) = m % 8 + x % 8 * 8 + m / 64 * 64
    rw [and199_split m hm, and7_mod x hx,
      or_shift3 (m % 8) (Nat.mod_lt m (by omega)) (m / 64) (by omega)
        (x % 8) (Nat.mod_lt x (by omega))]
  have hrm : (ModRm.set_rm ⟨m⟩ x).byte = m / 8 * 8 + x % 8 := by
    show (m &&& 248) ||| (x &&& 7) = m / 8 * 8 + x % 8
    rw [and248_div m hm, and7_mod x hx,
      or_low (m / 8) (by omega) (x % 8) (Nat.mod_lt x (by omega))]
  refine ⟨⟨?_, ?_⟩, ⟨?_, ?_, ?_⟩, ⟨?_, ?_⟩⟩
  · rw [hmod]; omega
  · rw [hmod]; omega
  · rw [hreg]; omega
  · rw [hreg]; omega
  · rw [hreg]; omega
  · rw [hrm]; omega
  · rw [hrm]; omega

/-- C9 witness: the frame property at the concrete byte 200 and value 5. -/
theorem modrm_setters_frame_witness :
    (200 : Nat) < 256 ∧ (5 : Nat) < 256 ∧
    (((ModRm.set_mod ⟨200⟩ 5).byte % 64 = 200 % 64 ∧
      (ModRm.set_mod ⟨200⟩ 5).byte / 64 = 5 % 4) ∧
     ((ModRm.set_reg ⟨200⟩ 5).byte % 8 = 200 % 8 ∧
      (ModRm.set_reg ⟨200⟩ 5).byte / 64 = 200 / 64 ∧
      (ModRm.set_reg ⟨200⟩ 5).byte / 8 % 8 = 5 % 8) ∧
     ((ModRm.set_rm ⟨200⟩ 5).byte / 8 = 200 / 8 ∧
      (ModRm.set_rm ⟨200⟩ 5).byte % 8 = 5 % 8)) :=
  ⟨by decide, by decide, modrm_setters_frame.1 200 5 (by decide) (by decide)⟩

/-- C10: a freshly constructed Encoder encodes successfully to zero bytes. -/
theorem encoder_new_encodes_empty :
    Option.map SVec.toList (Encoder.encode Encoder.new) = some [] := by decide
